import Mathlib

/-!
Verification of the CatOS Calamares package modules
(`pacman/main.py`, `paru/main.py`, `pacstrap/main.py`, `pacstrap/pkgcheck.py`).

Strings are modelled as `List Char`.  Package-entry lists, the locale
substitution (`subst_locale`, built on Python's
`string.Template.safe_substitute`), the existence filter
(`pkgcheck.filter_operation_list`, `pkgcheck.preprocess_operations`), the
retry loops (`PacmanManager.run_pacman`, `ParuManager.run_paru`) and the
operation dispatchers (`run_operations`, `run`) are embedded as executable
Lean functions, translated clause by clause from the Python source.
-/

namespace CatosPkg

/-- Identifier-start characters of a template placeholder (Python
`string.Template` idpattern with IGNORECASE): underscore or a letter. -/
def isIdentStart (c : Char) : Bool := c = '_' || c.isAlpha

/-- Identifier-continuation characters: identifier start or a digit. -/
def isIdentCont (c : Char) : Bool := isIdentStart c || c.isDigit

/-- Boolean list-prefix test over characters. -/
def listPrefixOf : List Char → List Char → Bool
  | [], _ => true
  | _ :: _, [] => false
  | a :: as, b :: bs => a = b && listPrefixOf as bs

/-- Boolean substring (contiguous infix) test over characters; models
Python's `in` operator on strings. -/
def listInfixOf (pat : List Char) : List Char → Bool
  | [] => listPrefixOf pat []
  | c :: t => listPrefixOf pat (c :: t) || listInfixOf pat t

/-- The identifier `LOCALE` used as substitution key in `subst_locale`. -/
def localeIdent : List Char := ['L', 'O', 'C', 'A', 'L', 'E']

/-- The braced placeholder token `${LOCALE}` as written in package lists. -/
def localeToken : List Char := '$' :: '{' :: (localeIdent ++ ['}'])

/-- The default locale string `"en"`. -/
def enLocale : List Char := ['e', 'n']

/-- Scanner state of `string.Template.safe_substitute`:
`normal` outside any match, `dollar` right after a `$`, `named acc`
inside an unbraced identifier, `braceOpen` right after `${`, `braced acc`
inside a braced identifier. -/
inductive SubstState where
  | normal
  | dollar
  | named (acc : List Char)
  | braceOpen
  | braced (acc : List Char)
deriving DecidableEq, Repr

/-- Result of a completed unbraced placeholder `$acc`: the locale if the
identifier is `LOCALE`, otherwise the match is left verbatim
(`safe_substitute` on a missing key). -/
def identResolve (loc acc : List Char) : List Char :=
  if acc = localeIdent then loc else '$' :: acc

/-- Result of a completed braced placeholder: the locale for
`LOCALE`, otherwise the whole match left verbatim. -/
def bracedResolve (loc acc : List Char) : List Char :=
  if acc = localeIdent then loc else '$' :: '{' :: (acc ++ ['}'])

/-- Left-to-right scanner of `Template.safe_substitute(LOCALE=loc)`:
`$$` is an escape producing `$`; `$ident` and `${ident}` are placeholders
(substituted when the identifier is `LOCALE`, left verbatim otherwise);
a `$` that starts no placeholder is left in place (the `invalid` group of
`safe_substitute`). -/
def substRun (loc : List Char) : SubstState → List Char → List Char
  | .normal, [] => []
  | .dollar, [] => ['$']
  | .named acc, [] => identResolve loc acc
  | .braceOpen, [] => ['$', '{']
  | .braced acc, [] => '$' :: '{' :: acc
  | .normal, c :: rest =>
      if c = '$' then substRun loc .dollar rest
      else c :: substRun loc .normal rest
  | .dollar, c :: rest =>
      if c = '$' then '$' :: substRun loc .normal rest
      else if c = '{' then substRun loc .braceOpen rest
      else if isIdentStart c then substRun loc (.named [c]) rest
      else '$' :: c :: substRun loc .normal rest
  | .named acc, c :: rest =>
      if isIdentCont c then substRun loc (.named (acc ++ [c])) rest
      else if c = '$' then identResolve loc acc ++ substRun loc .dollar rest
      else identResolve loc acc ++ (c :: substRun loc .normal rest)
  | .braceOpen, c :: rest =>
      if c = '$' then '$' :: '{' :: substRun loc .dollar rest
      else if isIdentStart c then substRun loc (.braced [c]) rest
      else '$' :: '{' :: c :: substRun loc .normal rest
  | .braced acc, c :: rest =>
      if c = '}' then bracedResolve loc acc ++ substRun loc .normal rest
      else if isIdentCont c then substRun loc (.braced (acc ++ [c])) rest
      else if c = '$' then '$' :: '{' :: (acc ++ substRun loc .dollar rest)
      else '$' :: '{' :: (acc ++ (c :: substRun loc .normal rest))

/-- `Template(name).safe_substitute(LOCALE=loc)`. -/
def safeSubst (loc s : List Char) : List Char := substRun loc .normal s

/-- A package entry: either a bare name string, or a structured record
`{package:…, pre-script:…, post-script:…}` (the dynamic
string-or-dict shape of the Python modules). -/
inductive PkgData where
  | str (name : List Char)
  | record (pkg : Option (List Char)) (pre post : Option (List Char))
deriving DecidableEq, Repr

/-- `_pkg_name_of` / the name-extraction prologue of `subst_locale`:
a bare string is its own name, a record yields its `package` field. -/
def pkgNameOf : PkgData → Option (List Char)
  | .str s => some s
  | .record p _ _ => p

/-- The per-name branch of `subst_locale`: when the locale is not `"en"`
apply `safe_substitute`; when it is `"en"` drop (return `none` for) names
containing the literal text `LOCALE`; otherwise keep the name. -/
def resolveName (loc n : List Char) : Option (List Char) :=
  if loc ≠ enLocale then some (safeSubst loc n)
  else if listInfixOf localeIdent n then none
  else some n

/-- Resolved name of one entry under `subst_locale`: `none` exactly when
the entry is skipped (missing `package` field, or an `"en"`-dropped name). -/
def resolveEntry (loc : List Char) (p : PkgData) : Option (List Char) :=
  match pkgNameOf p with
  | none => none
  | some n => resolveName loc n

/-- The list returned by `subst_locale`: entries whose name resolves are
kept (bare strings become the resolved string; records get their `package`
field set to the resolved name), the rest are dropped. -/
def substLocale (loc : List Char) : List PkgData → List PkgData
  | [] => []
  | p :: rest =>
    match resolveEntry loc p with
    | none => substLocale loc rest
    | some n =>
      (match p with
       | .str _ => PkgData.str n
       | .record _ pre post => PkgData.record (some n) pre post) :: substLocale loc rest

/-- The state of the INPUT list after `subst_locale` returns: the Python
code executes `packagedata["package"] = packagename` on every kept record
entry, mutating the caller's dictionaries in place; bare strings and
skipped entries are untouched. -/
def substLocaleInputAfter (loc : List Char) : List PkgData → List PkgData
  | [] => []
  | p :: rest =>
    (match p with
     | .str s => PkgData.str s
     | .record pk pre post =>
       match resolveEntry loc p with
       | some n => PkgData.record (some n) pre post
       | none => PkgData.record pk pre post) :: substLocaleInputAfter loc rest

/-- Interleaving of segments with a separator list: `joinWith m [a,b,c]`
is `a ++ m ++ b ++ m ++ c`.  With `m := localeToken` this describes the
names whose every `$` opens a full, well-formed `${LOCALE}` placeholder. -/
def joinWith (mid : List Char) : List (List Char) → List Char
  | [] => []
  | [seg] => seg
  | seg :: seg2 :: rest => seg ++ mid ++ joinWith mid (seg2 :: rest)

/-- A raw value stored under an operation key: either a list of package
entries, or — for the `source` tag as it appears in configuration — a
plain string.  Python's `subst_locale` iterates a string character by
character, so a raw string behaves as the list of its one-character
entries. -/
inductive OpVal where
  | pkgs (l : List PkgData)
  | rawStr (s : List Char)
deriving DecidableEq, Repr

/-- The package-entry view of a raw value (what `subst_locale(entry[key])`
iterates over). -/
def OpVal.toPlist : OpVal → List PkgData
  | .pkgs l => l
  | .rawStr s => s.map (fun c => PkgData.str [c])

/-- One operation: an insertion-ordered mapping from keys (operation
kinds, plus possibly `source` or unknown keys) to raw values. -/
abbrev Op : Type := List (String × OpVal)

/-- An operation after `preprocess_operations`: every value is a plain
list of package entries. -/
abbrev POp : Type := List (String × List PkgData)

/-- View a preprocessed operation as a raw operation (run_operations in
the pacman module receives exactly these). -/
def POp.toOp (p : POp) : Op := p.map (fun kv => (kv.1, OpVal.pkgs kv.2))

/-- The four existence-checked keys of `preprocess_operations`. -/
def filterKeys : List String := ["install", "try_install", "remove", "try_remove"]

/-- The five executable keys (the four filtered ones plus `localInstall`). -/
def execKeys : List String := filterKeys ++ ["localInstall"]

/-- `pkgcheck.filter_operation_list`: keep only items whose name is
non-empty and present among the repository packages or groups; empty or
missing names and unknown names are dropped (with a warning). -/
def filterOpList (repoPkgs repoGroups : List (List Char)) : List PkgData → List PkgData
  | [] => []
  | item :: rest =>
    match pkgNameOf item with
    | none => filterOpList repoPkgs repoGroups rest
    | some n =>
      if n = [] then filterOpList repoPkgs repoGroups rest
      else if n ∈ repoPkgs ∨ n ∈ repoGroups then
        item :: filterOpList repoPkgs repoGroups rest
      else filterOpList repoPkgs repoGroups rest

/-- One key of `preprocess_operations`: the localized value together with
its contribution to the running total (`len(filtered)` for the four
filtered keys, `len(localized)` for `localInstall`, `0` otherwise). -/
def preprocessEntry (loc : List Char) (repoP repoG : List (List Char))
    (kv : String × OpVal) : (String × List PkgData) × Nat :=
  let localized := substLocale loc kv.2.toPlist
  if kv.1 ∈ filterKeys then
    let f := filterOpList repoP repoG localized
    ((kv.1, f), f.length)
  else if kv.1 = "localInstall" then ((kv.1, localized), localized.length)
  else ((kv.1, localized), 0)

/-- The inner loop of `preprocess_operations` over one operation's items:
builds `new_op` and this operation's total contribution. -/
def preprocessOpEntries (loc : List Char) (repoP repoG : List (List Char)) :
    List (String × OpVal) → POp × Nat
  | [] => ([], 0)
  | kv :: rest =>
    let e := preprocessEntry loc repoP repoG kv
    let es := preprocessOpEntries loc repoP repoG rest
    (e.1 :: es.1, e.2 + es.2)

/-- The final `if any(...)` of `preprocess_operations`: keep a processed
operation only if some list in it is non-empty. -/
def keepOp (p : POp) : Bool := p.any (fun kv => kv.2.length ≠ 0)

/-- `pkgcheck.preprocess_operations`: localize and filter every
operation, drop completely-empty operations, and return the filtered
operations with the accumulated total count. -/
def preprocessOps (loc : List Char) (repoP repoG : List (List Char)) :
    List Op → List POp × Nat
  | [] => ([], 0)
  | op :: rest =>
    let e := preprocessOpEntries loc repoP repoG op
    let es := preprocessOps loc repoP repoG rest
    (if keepOp e.1 then e.1 :: es.1 else es.1, e.2 + es.2)

/-- Count of the executable entries of one preprocessed operation: the
summed lengths of the lists stored under the five executable keys;
`source` and unknown keys contribute nothing. -/
def opExecCount (p : POp) : Nat :=
  (p.map (fun kv => if kv.1 ∈ execKeys then kv.2.length else 0)).sum

/-- `PacmanManager.run_pacman` as a function of the configured retry
count `r` and the behaviour `beh` of the underlying command (`beh i` is
whether the `i+1`-th invocation exits successfully).  Mirrors the source
loop: `pacman_count = 0; while pacman_count <= num_retries: pacman_count
+= 1; try: run; return; except: if pacman_count <= num_retries: continue;
raise`.  Returns the number of invocations performed, paired with `true`
on success and `false` when the final `CalledProcessError` is re-raised. -/
def runPacmanCount (beh : Nat → Bool) (r count : Nat) : Nat × Bool :=
  if beh count then (count + 1, true)
  else if h : count + 1 ≤ r then runPacmanCount beh r (count + 1)
  else (count + 1, false)
termination_by r - count
decreasing_by omega

/-- `run_pacman` entered with the loop counter at zero. -/
def run_pacman (beh : Nat → Bool) (r : Nat) : Nat × Bool := runPacmanCount beh r 0

/-- `ParuManager.run_paru`: the same retry loop, except that after
exhausting the retries the failure is logged and swallowed — the call
returns `False` instead of raising.  A timed-out invocation behaves as a
failed attempt (`beh i = false`), exactly as the synthetic
`CalledProcessError(returncode=124)` in the source. -/
def runParuCount (beh : Nat → Bool) (r count : Nat) : Nat × Bool :=
  if beh count then (count + 1, true)
  else if h : count + 1 ≤ r then runParuCount beh r (count + 1)
  else (count + 1, false)
termination_by r - count
decreasing_by omega

/-- The boolean result of one `run_paru` call (never raises). -/
def run_paru (beh : Nat → Bool) (r : Nat) : Bool := (runParuCount beh r 0).2

/-- The module-global progress state of the pacman/paru modules:
`total_packages`, `completed_packages`, `group_packages`. -/
structure MState where
  total : Nat
  completed : Nat
  group : Nat
deriving DecidableEq, Repr

/-- Observable actions of the pacman module's dispatcher: backend
operations (carrying the package list handed to the `PacmanManager`
method), the `source` debug log, the unknown-key warning, fractional
progress pushes `setprogress(completed/total)` (carrying the counters the
fraction is computed from), and the final `setprogress(1.0)`. -/
inductive Ev where
  | opInstall (l : List PkgData) (fromLocal : Bool)
  | opTryInstall (l : List PkgData)
  | opRemove (l : List PkgData)
  | opTryRemove (l : List PkgData)
  | debugSource
  | warnUnknown (k : String)
  | progress (completed total : Nat)
  | progressDone
deriving DecidableEq, Repr

/-- Is the event an invocation of a backend package operation? -/
def isBackendOp : Ev → Bool
  | .opInstall _ _ => true
  | .opTryInstall _ => true
  | .opRemove _ => true
  | .opTryRemove _ => true
  | _ => false

/-- The progress push performed by `_change_mode`: only when
`total_packages > 0` (the divide-by-zero guard in the source). -/
def modeChangeEv (s : MState) : List Ev :=
  if 0 < s.total then [Ev.progress s.completed s.total] else []

/-- Events of dispatching one key in `run_operations`: the five
executable keys change the mode (pushing progress) and invoke the
matching backend method; `source` logs a debug line; any other key logs
an unknown-key warning and invokes nothing. -/
def dispatchEv (s1 : MState) (k : String) (l : List PkgData) : List Ev :=
  if k = "install" then modeChangeEv s1 ++ [Ev.opInstall l false]
  else if k = "try_install" then modeChangeEv s1 ++ [Ev.opTryInstall l]
  else if k = "remove" then modeChangeEv s1 ++ [Ev.opRemove l]
  else if k = "try_remove" then modeChangeEv s1 ++ [Ev.opTryRemove l]
  else if k = "localInstall" then modeChangeEv s1 ++ [Ev.opInstall l true]
  else if k = "source" then [Ev.debugSource]
  else [Ev.warnUnknown k]

/-- Keys whose backend call can raise `CalledProcessError` out of
`run_operations` (the `try_` variants catch it per package, and
`source`/unknown keys invoke nothing). -/
def keyRaises (k : String) : Bool :=
  k = "install" || k = "remove" || k = "localInstall"

/-- Result of a dispatch step: final counters, next failure-oracle
index, the intermediate counter states visited, the events emitted, and
whether a `CalledProcessError` escaped. -/
structure StepOut where
  state : MState
  ix : Nat
  states : List MState
  events : List Ev
  raised : Bool
deriving DecidableEq, Repr

/-- One iteration of the key loop of the pacman module's
`run_operations`: localize the list, set `group_packages`, dispatch on
the key, and — unless the backend raised (`pf ix` for the raising keys) —
add the list length to `completed_packages` and push progress when
`total_packages > 0`. -/
def pacmanRunOpsKey (loc : List Char) (pf : Nat → Bool) (s : MState) (ix : Nat)
    (kv : String × OpVal) : StepOut :=
  let l := substLocale loc kv.2.toPlist
  let s1 : MState := { s with group := l.length }
  let evs := dispatchEv s1 kv.1 l
  if keyRaises kv.1 && pf ix then
    ⟨s1, ix + 1, [s1], evs, true⟩
  else
    let s2 : MState := { s1 with completed := s1.completed + l.length }
    let evs2 : List Ev :=
      if 0 < s2.total then [Ev.progress s2.completed s2.total] else []
    ⟨s2, ix + (if keyRaises kv.1 then 1 else 0), [s1, s2], evs ++ evs2, false⟩

/-- The key loop of `run_operations`; a raised error aborts the loop. -/
def pacmanRunOpsKeys (loc : List Char) (pf : Nat → Bool) :
    MState → Nat → List (String × OpVal) → StepOut
  | s, ix, [] => ⟨s, ix, [], [], false⟩
  | s, ix, kv :: rest =>
    let r1 := pacmanRunOpsKey loc pf s ix kv
    if r1.raised then r1
    else
      let r2 := pacmanRunOpsKeys loc pf r1.state r1.ix rest
      ⟨r2.state, r2.ix, r1.states ++ r2.states, r1.events ++ r2.events, r2.raised⟩

/-- The pacman module's `run_operations` on one entry: run the key loop,
then reset `group_packages` to 0 and `_change_mode(None)` (which pushes
progress again). -/
def pacmanRunOps (loc : List Char) (pf : Nat → Bool) (s : MState) (ix : Nat)
    (op : Op) : StepOut :=
  let r := pacmanRunOpsKeys loc pf s ix op
  if r.raised then r
  else
    let s2 : MState := { r.state with group := 0 }
    ⟨s2, r.ix, r.states ++ [s2], r.events ++ modeChangeEv s2, false⟩

/-- The dispatch loop of the pacman module's `run` (the part after
preprocessing): `group_packages = 0` before each entry, then
`run_operations`; a `CalledProcessError` makes `run` return an error
tuple immediately. -/
def pacmanDispatch (loc : List Char) (pf : Nat → Bool) :
    MState → Nat → List POp → StepOut
  | s, ix, [] => ⟨s, ix, [], [], false⟩
  | s, ix, op :: rest =>
    let s0 : MState := { s with group := 0 }
    let r1 := pacmanRunOps loc pf s0 ix op.toOp
    if r1.raised then ⟨r1.state, r1.ix, s0 :: r1.states, r1.events, true⟩
    else
      let r2 := pacmanDispatch loc pf r1.state r1.ix rest
      ⟨r2.state, r2.ix, s0 :: r1.states ++ r2.states, r1.events ++ r2.events, r2.raised⟩

/-- Result of a whole run: whether an error tuple was returned, the
counter states visited, and the events emitted. -/
structure RunOut where
  err : Bool
  states : List MState
  events : List Ev
deriving DecidableEq, Repr

/-- The pacman module's `run` from the point where preprocessing has
produced the filtered operations and `filtered_total`: the counters are
initialized (`total = filtered_total`, `completed = 0`, `group = 0`); if
the total is zero `run` returns `None` at once; otherwise the entries are
dispatched and, if nothing raised, `setprogress(1.0)` is pushed and
`None` returned. -/
def pacmanRunAfterPre (loc : List Char) (pf : Nat → Bool) (pops : List POp)
    (tot : Nat) : RunOut :=
  let s0 : MState := ⟨tot, 0, 0⟩
  if tot = 0 then ⟨false, [s0], []⟩
  else
    let r := pacmanDispatch loc pf s0 0 pops
    if r.raised then ⟨true, s0 :: r.states, r.events⟩
    else ⟨false, s0 :: r.states, r.events ++ [Ev.progressDone]⟩

/-- Python `str.lower()`. -/
def lowerStr (s : List Char) : List Char := s.map Char.toLower

/-- `entry.get(key)`: first value stored under the key. -/
def lookupVal (k : String) : Op → Option OpVal
  | [] => none
  | kv :: rest => if kv.1 = k then some kv.2 else lookupVal k rest

/-- `str(entry.get("source", ""))` for well-formed (string-valued)
source tags: the source string, or the empty string when absent. -/
def sourceStr (op : Op) : List Char :=
  match lookupVal "source" op with
  | some (.rawStr s) => s
  | _ => []

/-- Well-formedness of the source tag: when present, its value is a
plain string (as in the configuration files). -/
def srcWF (op : Op) : Bool :=
  op.all (fun kv => !(kv.1 = "source")
    || (match kv.2 with | .rawStr _ => true | .pkgs _ => false))

/-- The characters of `"paru"`. -/
def paruChars : List Char := ['p', 'a', 'r', 'u']

/-- The characters of `"flatpak"`. -/
def flatpakChars : List Char := ['f', 'l', 'a', 't', 'p', 'a', 'k']

/-- The pacman module's source filter: drop every operation whose
lower-cased source tag contains `"paru"` or `"flatpak"`, keep the rest. -/
def pacmanFilterOps : List Op → List Op
  | [] => []
  | op :: rest =>
    let src := lowerStr (sourceStr op)
    if listInfixOf paruChars src || listInfixOf flatpakChars src then
      pacmanFilterOps rest
    else op :: pacmanFilterOps rest

/-- The paru module's source filter: keep exactly the operations whose
lower-cased source tag contains `"paru"`. -/
def paruFilterOps : List Op → List Op
  | [] => []
  | op :: rest =>
    if listInfixOf paruChars (lowerStr (sourceStr op)) then
      op :: paruFilterOps rest
    else paruFilterOps rest

/-- The pacman module's `run` from the source filter onward: filter out
paru/flatpak-tagged operations, preprocess, then dispatch. -/
def pacmanRun (loc : List Char) (pf : Nat → Bool) (repoP repoG : List (List Char))
    (rawOps : List Op) : RunOut :=
  let ops := pacmanFilterOps rawOps
  let pre := preprocessOps loc repoP repoG ops
  pacmanRunAfterPre loc pf pre.1 pre.2
/-- Observable actions of the paru module's dispatcher: one `run_paru`
call per package (carrying the entry and the boolean the call returned),
the `source` debug log, the unknown-key warning, fractional progress
pushes, and the final `setprogress(1.0)`. -/
inductive PEv where
  | call (p : PkgData) (ok : Bool)
  | debugSource
  | warnUnknown (k : String)
  | progress (completed total : Nat)
  | progressDone
deriving DecidableEq, Repr

/-- The guarded progress push of the paru module's `_change_mode`. -/
def paruModeEv (s : MState) : List PEv :=
  if 0 < s.total then [PEv.progress s.completed s.total] else []

/-- The five executable keys of the paru module's `run_operations` (all
backed by per-package best-effort `run_paru` calls). -/
def paruExecKey (k : String) : Bool :=
  k = "install" || k = "try_install" || k = "remove" || k = "try_remove"
    || k = "localInstall"

/-- One best-effort backend call per package: `beh ix` is the attempt
behaviour of the `ix`-th `run_paru` call of the run (its retry loop draws
from it).  No call raises; results are only recorded. -/
def paruCalls (beh : Nat → Nat → Bool) (r : Nat) :
    List PkgData → Nat → List PEv × Nat
  | [], ix => ([], ix)
  | p :: rest, ix =>
    let ok := run_paru (beh ix) r
    let rs := paruCalls beh r rest (ix + 1)
    (PEv.call p ok :: rs.1, rs.2)

/-- Result of a paru dispatch step: counters, next call index, events.
The paru dispatcher cannot raise (every failure path is caught). -/
structure PStepOut where
  state : MState
  ix : Nat
  events : List PEv
deriving Repr

/-- One iteration of the key loop of the paru module's `run_operations`:
localize, set `group_packages`, dispatch (executable keys change mode and
perform one best-effort call per package; `source` logs; unknown keys
warn), then add the list length to `completed_packages` and push progress
when `total_packages > 0`. -/
def paruRunOpsKey (loc : List Char) (beh : Nat → Nat → Bool) (r : Nat)
    (s : MState) (ix : Nat) (kv : String × OpVal) : PStepOut :=
  let l := substLocale loc kv.2.toPlist
  let s1 : MState := { s with group := l.length }
  let be : List PEv × Nat :=
    if paruExecKey kv.1 then
      let cs := paruCalls beh r l ix
      (paruModeEv s1 ++ cs.1, cs.2)
    else if kv.1 = "source" then ([PEv.debugSource], ix)
    else ([PEv.warnUnknown kv.1], ix)
  let s2 : MState := { s1 with completed := s1.completed + l.length }
  ⟨s2, be.2,
    be.1 ++ (if 0 < s2.total then [PEv.progress s2.completed s2.total] else [])⟩

/-- The key loop of the paru module's `run_operations`. -/
def paruRunOpsKeys (loc : List Char) (beh : Nat → Nat → Bool) (r : Nat) :
    MState → Nat → List (String × OpVal) → PStepOut
  | s, ix, [] => ⟨s, ix, []⟩
  | s, ix, kv :: rest =>
    let r1 := paruRunOpsKey loc beh r s ix kv
    let r2 := paruRunOpsKeys loc beh r r1.state r1.ix rest
    ⟨r2.state, r2.ix, r1.events ++ r2.events⟩

/-- The paru module's `run_operations` on one entry (key loop, then
group reset and `_change_mode(None)`). -/
def paruRunOps (loc : List Char) (beh : Nat → Nat → Bool) (r : Nat)
    (s : MState) (ix : Nat) (op : Op) : PStepOut :=
  let q := paruRunOpsKeys loc beh r s ix op
  let s2 : MState := { q.state with group := 0 }
  ⟨s2, q.ix, q.events ++ paruModeEv s2⟩

/-- The dispatch loop of the paru module's `run`: `group_packages = 0`
before each entry; `run_operations` is wrapped in a catch-all, so the
loop always continues. -/
def paruDispatch (loc : List Char) (beh : Nat → Nat → Bool) (r : Nat) :
    MState → Nat → List Op → PStepOut
  | s, ix, [] => ⟨s, ix, []⟩
  | s, ix, op :: rest =>
    let s0 : MState := { s with group := 0 }
    let r1 := paruRunOps loc beh r s0 ix op
    let r2 := paruDispatch loc beh r r1.state r1.ix rest
    ⟨r2.state, r2.ix, r1.events ++ r2.events⟩

/-- Total length of the localized lists of one raw operation — the
summand of the paru module's `total_packages` computation (note it runs
over ALL values, the `source` tag included). -/
def keysLen (loc : List Char) (op : Op) : Nat :=
  (op.map (fun kv => (substLocale loc kv.2.toPlist).length)).sum

/-- The paru module's `total_packages`: the summed localized lengths of
every value of every filtered operation. -/
def paruTotal (loc : List Char) (ops : List Op) : Nat :=
  (ops.map (keysLen loc)).sum

/-- Summed localized lengths of the dispatched (preprocessed) pacman
operations — the amount `completed_packages` grows by during dispatch. -/
def popsLen (loc : List Char) (pops : List POp) : Nat :=
  (pops.map (fun p => keysLen loc p.toOp)).sum

/-- Result of a paru run: the error outcome (`run` returning an error
tuple) and the emitted events. -/
structure ParuRunOut where
  err : Bool
  events : List PEv
deriving Repr

/-- The paru module's `run` from the source filter onward: keep only
paru-tagged operations, compute `total_packages`; if zero, return `None`
immediately (no progress push); otherwise dispatch every entry (failures
are absorbed) and push `setprogress(1.0)`. -/
def paruRun (loc : List Char) (beh : Nat → Nat → Bool) (r : Nat)
    (rawOps : List Op) : ParuRunOut :=
  let ops := paruFilterOps rawOps
  let tot := paruTotal loc ops
  if tot = 0 then ⟨false, []⟩
  else
    let d := paruDispatch loc beh r ⟨tot, 0, 0⟩ 0 ops
    ⟨false, d.events ++ [PEv.progressDone]⟩

/-- The pacstrap module's `run` from the point where `basePackages` is
assembled: filter it against the host repository index; when everything
was filtered out, warn, push `setprogress(1.0)` and return `None`;
otherwise run `pacstrap` (`pacstrapOk` tells whether it succeeds), push
`setprogress(1.0)` and return `None` on success, or return an error tuple
without the final push on failure.  The returned boolean records whether
`setprogress(1.0)` was pushed. -/
def pacstrapRun (repoP repoG : List (List Char)) (base : List PkgData)
    (pacstrapOk : Bool) : Option (String × String) × Bool :=
  let bp := filterOpList repoP repoG base
  if bp = [] then (none, true)
  else if pacstrapOk then (none, true)
  else (some ("Failed to run pacstrap", "pacstrap failed"), false)
/-- All fractional progress events in the list carry a positive total
(the fraction `completed/total` is only ever formed with `total > 0`). -/
def progressPos (evs : List Ev) : Prop :=
  ∀ e ∈ evs, ∀ c t, e = Ev.progress c t → 0 < t

theorem substRun_normal_nodollar_append (loc : List Char) :
    ∀ a x : List Char, '$' ∉ a →
      substRun loc .normal (a ++ x) = a ++ substRun loc .normal x := by
  intro a
  induction a with
  | nil => intro x _; rfl
  | cons c as ih =>
    intro x ha
    have hc : ¬(c = '$') := fun h => ha (h ▸ List.mem_cons_self _ _)
    have hstep : substRun loc .normal ((c :: as) ++ x)
        = if c = '$' then substRun loc .dollar (as ++ x)
          else c :: substRun loc .normal (as ++ x) := rfl
    rw [hstep, if_neg hc, ih x (fun h => ha (List.mem_cons_of_mem _ h))]
    rfl

theorem substRun_token_step (loc x : List Char) :
    substRun loc .normal (localeToken ++ x) = loc ++ substRun loc .normal x := rfl

/-- On a name shaped `a₀ ++ ${LOCALE} ++ a₁ ++ … ++ ${LOCALE} ++ aₖ` with
dollar-free segments, `safe_substitute` replaces every placeholder with
the locale. -/
theorem safeSubst_joinWith (loc : List Char) :
    ∀ segs : List (List Char), (∀ t ∈ segs, '$' ∉ t) →
      safeSubst loc (joinWith localeToken segs) = joinWith loc segs := by
  intro segs
  induction segs with
  | nil => intro _; rfl
  | cons seg rest ih =>
    intro hsegs
    match rest with
    | [] =>
      have h1 : '$' ∉ seg := hsegs seg (List.mem_cons_self _ _)
      have := substRun_normal_nodollar_append loc seg [] h1
      simpa [safeSubst, joinWith,
        show substRun loc .normal ([] : List Char) = [] from rfl] using this
    | seg2 :: rest2 =>
      have h1 : '$' ∉ seg := hsegs seg (List.mem_cons_self _ _)
      have hrest : ∀ t ∈ seg2 :: rest2, '$' ∉ t :=
        fun t ht => hsegs t (List.mem_cons_of_mem _ ht)
      have hj : joinWith localeToken (seg :: seg2 :: rest2)
          = seg ++ (localeToken ++ joinWith localeToken (seg2 :: rest2)) := by
        rw [joinWith]; simp [List.append_assoc]
      rw [safeSubst, hj, substRun_normal_nodollar_append loc seg _ h1,
        substRun_token_step]
      have ihr := ih hrest
      rw [safeSubst] at ihr
      rw [ihr, joinWith]
      simp [List.append_assoc]

theorem joinWith_nodollar (loc : List Char) (hl : '$' ∉ loc) :
    ∀ segs : List (List Char), (∀ t ∈ segs, '$' ∉ t) →
      '$' ∉ joinWith loc segs := by
  intro segs
  induction segs with
  | nil => intro _; simp [joinWith]
  | cons seg rest ih =>
    intro hsegs
    match rest with
    | [] => exact hsegs seg (List.mem_cons_self _ _)
    | seg2 :: rest2 =>
      rw [joinWith]
      intro hmem
      rcases List.mem_append.mp hmem with h1 | h2
      · rcases List.mem_append.mp h1 with h3 | h4
        · exact hsegs seg (List.mem_cons_self _ _) h3
        · exact hl h4
      · exact ih (fun t ht => hsegs t (List.mem_cons_of_mem _ ht)) h2

theorem dollar_mem_of_prefixToken :
    ∀ t : List Char, listPrefixOf localeToken t = true → '$' ∈ t := by
  intro t h
  match t with
  | [] => exact absurd h (by decide)
  | b :: bs =>
    have hand : (decide ('$' = b) && listPrefixOf ('{' :: (localeIdent ++ ['}'])) bs) = true := h
    rcases Bool.and_eq_true_iff.mp hand with ⟨h1, _⟩
    have hb : '$' = b := of_decide_eq_true h1
    exact hb ▸ List.mem_cons_self _ _

theorem dollar_mem_of_infixToken :
    ∀ t : List Char, listInfixOf localeToken t = true → '$' ∈ t := by
  intro t
  induction t with
  | nil => intro h; exact absurd h (by decide)
  | cons c rest ih =>
    intro h
    rcases Bool.or_eq_true_iff.mp h with h1 | h2
    · exact dollar_mem_of_prefixToken _ h1
    · exact List.mem_cons_of_mem _ (ih h2)
/-- C6 (amended): for every locale `L ≠ "en"` containing no `$`, every
entry whose name is an interleaving of dollar-free segments with the
placeholder token `${LOCALE}` resolves, under `subst_locale`, to a name
with no remaining occurrence of the token; and for `L = "en"`, no name in
the resolved output contains the literal text `LOCALE` (entries containing
it are dropped). -/
theorem C6_amended (loc : List Char) (plist : List PkgData) :
    (loc ≠ enLocale → '$' ∉ loc →
      (∀ p ∈ plist, ∀ nm, pkgNameOf p = some nm →
        ∃ segs : List (List Char),
          nm = joinWith localeToken segs ∧ ∀ t ∈ segs, '$' ∉ t) →
      ∀ item ∈ substLocale loc plist, ∀ n, pkgNameOf item = some n →
        listInfixOf localeToken n = false)
    ∧ (∀ item ∈ substLocale enLocale plist, ∀ n, pkgNameOf item = some n →
        listInfixOf localeIdent n = false) := by
  constructor
  · intro hne hd hgood
    induction plist with
    | nil => intro item h; exact absurd h (by simp [substLocale])
    | cons p rest ih =>
      intro item hitem n hn
      have hgoodr : ∀ q ∈ rest, ∀ nm, pkgNameOf q = some nm →
          ∃ segs : List (List Char),
            nm = joinWith localeToken segs ∧ ∀ t ∈ segs, '$' ∉ t :=
        fun q hq => hgood q (List.mem_cons_of_mem _ hq)
      rcases hres : resolveEntry loc p with _ | nm'
      · rw [substLocale, hres] at hitem
        exact ih hgoodr item hitem n hn
      · rw [substLocale, hres] at hitem
        rcases List.mem_cons.mp hitem with h1 | h2
        · rcases hname : pkgNameOf p with _ | n0
          · rw [resolveEntry, hname] at hres; exact absurd hres (by simp)
          · have hnm' : nm' = safeSubst loc n0 := by
              simp only [resolveEntry, hname, resolveName] at hres
              rw [if_pos hne] at hres
              exact (Option.some_injective _ hres).symm
            rcases hgood p (List.mem_cons_self _ _) n0 hname with ⟨segs, hseg, hsegd⟩
            have hval : nm' = joinWith loc segs := by
              rw [hnm', hseg, safeSubst_joinWith loc segs hsegd]
            have hnd : '$' ∉ nm' := hval ▸ joinWith_nodollar loc hd segs hsegd
            have hitem_name : nm' = n := by
              cases p with
              | str s => simpa [h1, pkgNameOf] using hn
              | record pk pre post => simpa [h1, pkgNameOf] using hn
            subst hitem_name
            cases h : listInfixOf localeToken nm' with
            | false => rfl
            | true => exact absurd (dollar_mem_of_infixToken _ h) hnd
        · exact ih hgoodr item h2 n hn
  · induction plist with
    | nil => intro item h; exact absurd h (by simp [substLocale])
    | cons p rest ih =>
      intro item hitem n hn
      rcases hres : resolveEntry enLocale p with _ | nm'
      · rw [substLocale, hres] at hitem
        exact ih item hitem n hn
      · rw [substLocale, hres] at hitem
        rcases List.mem_cons.mp hitem with h1 | h2
        · rcases hname : pkgNameOf p with _ | n0
          · rw [resolveEntry, hname] at hres; exact absurd hres (by simp)
          · have hsome : resolveName enLocale n0 = some nm' := by
              simp only [resolveEntry, hname] at hres; exact hres
            simp only [resolveName] at hsome
            rw [if_neg (by simp)] at hsome
            by_cases hinf : listInfixOf localeIdent n0 = true
            · rw [if_pos hinf] at hsome; exact absurd hsome (by simp)
            · rw [if_neg hinf] at hsome
              have hnm' : nm' = n0 := (Option.some_injective _ hsome).symm
              have hitem_name : nm' = n := by
                cases p with
                | str s => simpa [h1, pkgNameOf] using hn
                | record pk pre post => simpa [h1, pkgNameOf] using hn
              rw [← hitem_name, hnm']
              exact Bool.not_eq_true _ ▸ hinf
        · exact ih item h2 n hn

/-- Witness for C6: locale `"fr"`, entry `"lang-${LOCALE}-pack"` resolves
to `"lang-fr-pack"`, free of the placeholder token. -/
theorem C6_witness :
    listInfixOf localeToken
      ['l', 'a', 'n', 'g', '-', 'f', 'r', '-', 'p', 'a', 'c', 'k'] = false := by
  have h := (C6_amended ['f', 'r']
    [PkgData.str ('l' :: 'a' :: 'n' :: 'g' :: '-' ::
      (localeToken ++ ['-', 'p', 'a', 'c', 'k']))]).1
  exact h (by decide) (by decide)
    (by
      intro p hp nm hnm
      refine ⟨[['l', 'a', 'n', 'g', '-'], ['-', 'p', 'a', 'c', 'k']], ?_, by decide⟩
      simp at hp
      subst hp
      simp [pkgNameOf] at hnm
      rw [← hnm]
      decide)
    (PkgData.str ['l', 'a', 'n', 'g', '-', 'f', 'r', '-', 'p', 'a', 'c', 'k'])
    (by decide) _ rfl

/-- Counterexample to C6 as stated: for locale `"fr"` the entry
`"$${LOCALE}"` contains the placeholder token, yet its resolved name
`"${LOCALE}"` still contains it — `safe_substitute` consumes the leading
`$$` as an escape, so this occurrence is never substituted. -/
theorem C6_counterexample :
    listInfixOf localeToken ['$', '$', '{', 'L', 'O', 'C', 'A', 'L', 'E', '}'] = true
    ∧ substLocale ['f', 'r'] [PkgData.str ['$', '$', '{', 'L', 'O', 'C', 'A', 'L', 'E', '}']]
        = [PkgData.str ['$', '{', 'L', 'O', 'C', 'A', 'L', 'E', '}']]
    ∧ listInfixOf localeToken ['$', '{', 'L', 'O', 'C', 'A', 'L', 'E', '}'] = true := by
  exact ⟨by decide, by decide, by decide⟩

/-- C7 (amended): `subst_locale` leaves bare-string input entries
unchanged — its output is a pure function of the list and the ambient
locale — but, contrary to the claim as stated, structured record entries
are mutated in place (`packagedata["package"] = packagename`); see the
counterexample. -/
theorem C7_amended (loc : List Char) (plist : List PkgData)
    (h : ∀ p ∈ plist, ∃ s, p = PkgData.str s) :
    substLocaleInputAfter loc plist = plist := by
  induction plist with
  | nil => rfl
  | cons p rest ih =>
    have hr : ∀ q ∈ rest, ∃ s, q = PkgData.str s :=
      fun q hq => h q (List.mem_cons_of_mem _ hq)
    rcases h p (List.mem_cons_self _ _) with ⟨s, hs⟩
    subst hs
    simp [substLocaleInputAfter, ih hr]

/-- Witness for C7: an all-bare-string input list is unchanged after the
call. -/
theorem C7_witness :
    substLocaleInputAfter ['f', 'r'] [PkgData.str ['a']] = [PkgData.str ['a']] :=
  C7_amended ['f', 'r'] [PkgData.str ['a']]
    (by intro p hp; simp at hp; exact ⟨['a'], hp⟩)

/-- Counterexample to C7 as stated: with locale `"fr"`, a record entry
whose `package` field is `"${LOCALE}"` is mutated in place by
`subst_locale`, so after the call the input list no longer equals its
pre-call value. -/
theorem C7_counterexample :
    substLocaleInputAfter ['f', 'r'] [PkgData.record (some localeToken) none none]
      ≠ [PkgData.record (some localeToken) none none] := by decide
theorem preprocessEntry_exec_count (loc : List Char) (repoP repoG : List (List Char))
    (kv : String × OpVal) :
    (preprocessEntry loc repoP repoG kv).2
      = (if (preprocessEntry loc repoP repoG kv).1.1 ∈ execKeys then
          (preprocessEntry loc repoP repoG kv).1.2.length else 0) := by
  rw [preprocessEntry]
  by_cases h1 : kv.1 ∈ filterKeys
  · simp only [if_pos h1]
    have : kv.1 ∈ execKeys := List.mem_append_left _ h1
    simp [this]
  · simp only [if_neg h1]
    by_cases h2 : kv.1 = "localInstall"
    · simp only [if_pos h2]
      have : kv.1 ∈ execKeys := by rw [h2]; decide
      simp [this]
    · simp only [if_neg h2]
      have : kv.1 ∉ execKeys := by
        intro hmem
        rcases List.mem_append.mp hmem with ha | hb
        · exact h1 ha
        · simp at hb; exact h2 hb
      simp [this]

theorem preprocessOpEntries_exec_count (loc : List Char)
    (repoP repoG : List (List Char)) :
    ∀ op : List (String × OpVal),
      (preprocessOpEntries loc repoP repoG op).2
        = opExecCount (preprocessOpEntries loc repoP repoG op).1 := by
  intro op
  induction op with
  | nil => rfl
  | cons kv rest ih =>
    rw [preprocessOpEntries]
    simp only [opExecCount, List.map_cons, List.sum_cons]
    rw [preprocessEntry_exec_count loc repoP repoG kv]
    simp only [opExecCount] at ih
    rw [ih]

theorem keepOp_false_exec_count_zero (p : POp) (h : keepOp p = false) :
    opExecCount p = 0 := by
  rw [keepOp] at h
  rw [opExecCount]
  induction p with
  | nil => rfl
  | cons kv rest ih =>
    simp only [List.any_cons, Bool.or_eq_false_iff] at h
    rcases h with ⟨h1, h2⟩
    simp only [List.map_cons, List.sum_cons]
    have hlen : kv.2.length = 0 := by
      simpa using h1
    rw [ih h2, hlen]
    simp

/-- C5: the `total_count` returned by `preprocess_operations` equals the
sum, over all operations in the filtered output, of the lengths of the
lists stored under the five executable keys (`install`, `try_install`,
`remove`, `try_remove`, `localInstall`); lists under `source` (or any
other unrecognized key) contribute nothing. -/
theorem C5_total_is_exec_sum (loc : List Char) (repoP repoG : List (List Char)) :
    ∀ ops : List Op,
      (preprocessOps loc repoP repoG ops).2
        = ((preprocessOps loc repoP repoG ops).1.map opExecCount).sum := by
  intro ops
  induction ops with
  | nil => rfl
  | cons op rest ih =>
    rw [preprocessOps]
    by_cases hk : keepOp (preprocessOpEntries loc repoP repoG op).1
    · simp only [if_pos hk, List.map_cons, List.sum_cons]
      rw [preprocessOpEntries_exec_count, ih]
    · simp only [if_neg (by simp [hk] : ¬(keepOp (preprocessOpEntries loc repoP repoG op).1 = true))]
      rw [preprocessOpEntries_exec_count, ih,
        keepOp_false_exec_count_zero _ (by simpa using hk)]
      simp
theorem substLocale_name_some (loc : List Char) :
    ∀ l : List PkgData, ∀ item ∈ substLocale loc l, ∃ n, pkgNameOf item = some n := by
  intro l
  induction l with
  | nil => intro item h; exact absurd h (by simp [substLocale])
  | cons p rest ih =>
    intro item hitem
    rcases hres : resolveEntry loc p with _ | nm
    · rw [substLocale, hres] at hitem
      exact ih item hitem
    · rw [substLocale, hres] at hitem
      rcases List.mem_cons.mp hitem with h1 | h2
      · cases p with
        | str s => exact ⟨nm, by rw [h1]; rfl⟩
        | record pk pre post => exact ⟨nm, by rw [h1]; rfl⟩
      · exact ih item h2

theorem filterOpList_name_nonempty (repoP repoG : List (List Char)) :
    ∀ l : List PkgData, ∀ item ∈ filterOpList repoP repoG l,
      ∃ n, pkgNameOf item = some n ∧ n ≠ [] := by
  intro l
  induction l with
  | nil => intro item h; exact absurd h (by simp [filterOpList])
  | cons p rest ih =>
    intro item hitem
    rcases hname : pkgNameOf p with _ | n
    · rw [filterOpList, hname] at hitem
      exact ih item hitem
    · rw [filterOpList, hname] at hitem
      have hitem2 : item ∈ (if n = [] then filterOpList repoP repoG rest
          else if n ∈ repoP ∨ n ∈ repoG then p :: filterOpList repoP repoG rest
          else filterOpList repoP repoG rest) := hitem
      by_cases hn0 : n = []
      · rw [if_pos hn0] at hitem2
        exact ih item hitem2
      · rw [if_neg hn0] at hitem2
        by_cases hmem : n ∈ repoP ∨ n ∈ repoG
        · rw [if_pos hmem] at hitem2
          rcases List.mem_cons.mp hitem2 with h1 | h2
          · exact ⟨n, by rw [h1]; exact hname, hn0⟩
          · exact ih item h2
        · rw [if_neg hmem] at hitem2
          exact ih item hitem2

theorem preprocessOps_mem_entries (loc : List Char) (repoP repoG : List (List Char)) :
    ∀ ops : List Op, ∀ pop ∈ (preprocessOps loc repoP repoG ops).1,
      ∃ op, pop = (preprocessOpEntries loc repoP repoG op).1 := by
  intro ops
  induction ops with
  | nil => intro pop h; exact absurd h (by simp [preprocessOps])
  | cons op rest ih =>
    intro pop hpop
    rw [preprocessOps] at hpop
    by_cases hk : keepOp (preprocessOpEntries loc repoP repoG op).1
    · simp only [if_pos hk] at hpop
      rcases List.mem_cons.mp hpop with h1 | h2
      · exact ⟨op, h1⟩
      · exact ih pop h2
    · simp only [if_neg hk] at hpop
      exact ih pop hpop

theorem preprocessOpEntries_mem_entry (loc : List Char) (repoP repoG : List (List Char)) :
    ∀ op : List (String × OpVal), ∀ kv ∈ (preprocessOpEntries loc repoP repoG op).1,
      ∃ kv0, kv = (preprocessEntry loc repoP repoG kv0).1 := by
  intro op
  induction op with
  | nil => intro kv h; exact absurd h (by simp [preprocessOpEntries])
  | cons kv0 rest ih =>
    intro kv hkv
    rw [preprocessOpEntries] at hkv
    rcases List.mem_cons.mp hkv with h1 | h2
    · exact ⟨kv0, h1⟩
    · exact ih kv h2

/-- C8 (amended): after `preprocess_operations`, entries with a missing
(`None`) package name are absent from every output list, and entries with
an empty-string name are additionally absent from the four
existence-checked lists; however — contrary to the claim as stated — an
entry resolving to the empty string under `localInstall` survives and
counts toward `total_count` (see the counterexample). -/
theorem C8_amended (loc : List Char) (repoP repoG : List (List Char)) (ops : List Op) :
    ∀ pop ∈ (preprocessOps loc repoP repoG ops).1, ∀ kv ∈ pop,
      (∀ item ∈ kv.2, ∃ n, pkgNameOf item = some n)
      ∧ (kv.1 ∈ filterKeys → ∀ item ∈ kv.2, ∃ n, pkgNameOf item = some n ∧ n ≠ []) := by
  intro pop hpop kv hkv
  rcases preprocessOps_mem_entries loc repoP repoG ops pop hpop with ⟨op, hop⟩
  subst hop
  rcases preprocessOpEntries_mem_entry loc repoP repoG op kv hkv with ⟨kv0, hkv0⟩
  subst hkv0
  rw [preprocessEntry]
  by_cases h1 : kv0.1 ∈ filterKeys
  · simp only [if_pos h1]
    constructor
    · intro item hitem
      rcases filterOpList_name_nonempty repoP repoG _ item hitem with ⟨n, hn, _⟩
      exact ⟨n, hn⟩
    · intro _ item hitem
      exact filterOpList_name_nonempty repoP repoG _ item hitem
  · simp only [if_neg h1]
    by_cases h2 : kv0.1 = "localInstall"
    · simp only [if_pos h2]
      exact ⟨fun item hitem => substLocale_name_some loc _ item hitem,
        fun hmem => absurd hmem h1⟩
    · simp only [if_neg h2]
      exact ⟨fun item hitem => substLocale_name_some loc _ item hitem,
        fun hmem => absurd hmem h1⟩

/-- Witness for C8: for the single operation `{install: ["a", ""]}` with
repository index `{a}`, the surviving install entry has the non-empty
name `"a"`. -/
theorem C8_witness :
    ∃ n, pkgNameOf (PkgData.str ['a']) = some n ∧ n ≠ [] := by
  have h := C8_amended enLocale [['a']] []
    [[("install", OpVal.pkgs [PkgData.str ['a'], PkgData.str []])]]
    [("install", [PkgData.str ['a']])] (by decide)
    ("install", [PkgData.str ['a']]) (by decide)
  exact h.2 (by decide) (PkgData.str ['a']) (by decide)

/-- Counterexample to C8 as stated: the operation `{localInstall: [""]}`
survives preprocessing with the empty-name entry still present in the
`localInstall` list, and it contributes 1 to `total_count` —
`filter_operation_list` (which drops empty names) is not applied to
`localInstall` lists. -/
theorem C8_counterexample :
    preprocessOps enLocale [] [] [[("localInstall", OpVal.pkgs [PkgData.str []])]]
      = ([[("localInstall", [PkgData.str []])]], 1) := by decide
theorem runPacmanCount_succeeds (beh : Nat → Bool) (r : Nat) :
    ∀ d count, (∀ i, count ≤ i → i < count + d → beh i = false) →
      beh (count + d) = true → count + d ≤ r →
      runPacmanCount beh r count = (count + d + 1, true) := by
  intro d
  induction d with
  | zero =>
    intro count _ hsucc _
    rw [runPacmanCount]
    simp only [Nat.add_zero] at hsucc
    rw [hsucc]
    simp
  | succ d ih =>
    intro count hfail hsucc hle
    have hbc : beh count = false := hfail count (Nat.le_refl _) (by omega)
    rw [runPacmanCount, hbc]
    simp only [Bool.false_eq_true, if_false]
    rw [dif_pos (by omega : count + 1 ≤ r)]
    have heq : count + 1 + d = count + (d + 1) := by omega
    have := ih (count + 1) (fun i h1 h2 => hfail i (by omega) (by omega))
      (by rw [heq]; exact hsucc) (by omega)
    rw [this, heq]

theorem runPacmanCount_exhausts (beh : Nat → Bool) (r : Nat) :
    ∀ d count, count + d = r → (∀ i, count ≤ i → i ≤ r → beh i = false) →
      runPacmanCount beh r count = (r + 1, false) := by
  intro d
  induction d with
  | zero =>
    intro count hcr hfail
    have hbc : beh count = false := hfail count (Nat.le_refl _) (by omega)
    rw [runPacmanCount, hbc]
    simp only [Bool.false_eq_true, if_false]
    rw [dif_neg (by omega : ¬(count + 1 ≤ r))]
    have hc : count = r := by omega
    rw [hc]
  | succ d ih =>
    intro count hcr hfail
    have hbc : beh count = false := hfail count (Nat.le_refl _) (by omega)
    rw [runPacmanCount, hbc]
    simp only [Bool.false_eq_true, if_false]
    rw [dif_pos (by omega : count + 1 ≤ r)]
    exact ih (count + 1) (by omega) (fun i h1 h2 => hfail i (by omega) h2)

/-- C4: the strict-policy executor `run_pacman` with retry count `r`:
for a command that fails exactly `k` times and then succeeds, if `r ≥ k`
the call succeeds after exactly `k+1` invocations; if `r < k` it raises
after exactly `r+1` invocations. -/
theorem C4_run_pacman_retries (beh : Nat → Bool) (r k : Nat)
    (hfail : ∀ i, i < k → beh i = false) (hsucc : beh k = true) :
    (k ≤ r → run_pacman beh r = (k + 1, true))
    ∧ (r < k → run_pacman beh r = (r + 1, false)) := by
  constructor
  · intro hkr
    have := runPacmanCount_succeeds beh r k 0
      (fun i _ h2 => hfail i (by omega)) (by simpa using hsucc) (by omega)
    simpa [run_pacman] using this
  · intro hrk
    have := runPacmanCount_exhausts beh r r 0 (by omega)
      (fun i _ h2 => hfail i (by omega))
    simpa [run_pacman] using this

/-- Witness for C4: a command failing twice then succeeding — with 3
retries the call succeeds on the 3rd invocation; with 1 retry it raises
after the 2nd. -/
theorem C4_witness :
    run_pacman (fun i => decide (2 ≤ i)) 3 = (3, true)
    ∧ run_pacman (fun i => decide (2 ≤ i)) 1 = (2, false) := by
  constructor
  · exact (C4_run_pacman_retries (fun i => decide (2 ≤ i)) 3 2
      (by decide) (by decide)).1 (by decide)
  · exact (C4_run_pacman_retries (fun i => decide (2 ≤ i)) 1 2
      (by decide) (by decide)).2 (by decide)
/-- C1 (amended): in `run_operations`, a key that is none of the six
recognized kinds is logged as unknown and dispatches no backend
operation; but — contrary to the claim as stated — it is not neutral for
the counters: `completed_packages` still grows by the length of the
locale-resolved list and `group_packages` is set to that length for the
iteration (see the counterexample). -/
theorem C1_amended (loc : List Char) (pf : Nat → Bool) (s : MState) (ix : Nat)
    (k : String) (v : OpVal)
    (h1 : k ≠ "install") (h2 : k ≠ "try_install") (h3 : k ≠ "remove")
    (h4 : k ≠ "try_remove") (h5 : k ≠ "localInstall") (h6 : k ≠ "source") :
    (pacmanRunOpsKey loc pf s ix (k, v)).raised = false
    ∧ (pacmanRunOpsKey loc pf s ix (k, v)).state.completed
        = s.completed + (substLocale loc v.toPlist).length
    ∧ (pacmanRunOpsKey loc pf s ix (k, v)).state.total = s.total
    ∧ Ev.warnUnknown k ∈ (pacmanRunOpsKey loc pf s ix (k, v)).events
    ∧ (∀ e ∈ (pacmanRunOpsKey loc pf s ix (k, v)).events, isBackendOp e = false)
    ∧ (pacmanRunOpsKey loc pf s ix (k, v)).ix = ix
    ∧ (pacmanRunOpsKey loc pf s ix (k, v)).state.group
        = (substLocale loc v.toPlist).length := by
  have hkr : keyRaises k = false := by
    simp [keyRaises, h1, h3, h5]
  have hde : ∀ s1 : MState, dispatchEv s1 k (substLocale loc v.toPlist)
      = [Ev.warnUnknown k] := by
    intro s1
    simp [dispatchEv, h1, h2, h3, h4, h5, h6]
  simp only [pacmanRunOpsKey, hkr, Bool.false_and, Bool.false_eq_true, if_false, hde]
  refine ⟨trivial, trivial, trivial, List.mem_append_left _ (List.mem_cons_self _ _), ?_,
    by simp, trivial⟩
  intro e he
  rcases List.mem_append.mp he with ha | hb
  · simp at ha
    rw [ha]
    rfl
  · by_cases hpos : 0 < s.total
    · simp only [if_pos hpos] at hb
      simp at hb
      rw [hb]
      rfl
    · simp only [if_neg hpos] at hb
      exact absurd hb (by simp)

/-- Counterexample to C1 as stated: dispatching the single unknown key
`{bogus: ["x"]}` leaves `completed_packages = 1`, while with the key
absent it would be 0 — the unknown key does affect the counter. -/
theorem C1_counterexample :
    (pacmanRunOpsKeys enLocale (fun _ => false) ⟨1, 0, 0⟩ 0
        [("bogus", OpVal.pkgs [PkgData.str ['x']])]).state.completed = 1
    ∧ (pacmanRunOpsKeys enLocale (fun _ => false) ⟨1, 0, 0⟩ 0 []).state.completed = 0
    ∧ Ev.warnUnknown "bogus" ∈ (pacmanRunOpsKeys enLocale (fun _ => false) ⟨1, 0, 0⟩ 0
        [("bogus", OpVal.pkgs [PkgData.str ['x']])]).events := by
  refine ⟨by decide, by decide, by decide⟩

/-- Witness for C1: instantiated at the unknown key `"bogus"` with the
one-entry list `["x"]`. -/
theorem C1_witness :
    (pacmanRunOpsKey enLocale (fun _ => false) ⟨7, 3, 0⟩ 2
        ("bogus", OpVal.pkgs [PkgData.str ['x']])).raised = false
    ∧ (pacmanRunOpsKey enLocale (fun _ => false) ⟨7, 3, 0⟩ 2
        ("bogus", OpVal.pkgs [PkgData.str ['x']])).state.completed
        = 3 + (substLocale enLocale (OpVal.pkgs [PkgData.str ['x']]).toPlist).length := by
  have h := C1_amended enLocale (fun _ => false) ⟨7, 3, 0⟩ 2 "bogus"
    (OpVal.pkgs [PkgData.str ['x']])
    (by decide) (by decide) (by decide) (by decide) (by decide) (by decide)
  exact ⟨h.1, h.2.1⟩
theorem mem_pacmanFilterOps (ops : List Op) (op : Op) :
    op ∈ pacmanFilterOps ops ↔ op ∈ ops
      ∧ listInfixOf paruChars (lowerStr (sourceStr op)) = false
      ∧ listInfixOf flatpakChars (lowerStr (sourceStr op)) = false := by
  induction ops with
  | nil => simp [pacmanFilterOps]
  | cons op0 rest ih =>
    rw [pacmanFilterOps]
    by_cases hp : listInfixOf paruChars (lowerStr (sourceStr op0)) = true
      ∨ listInfixOf flatpakChars (lowerStr (sourceStr op0)) = true
    · have hcond : (listInfixOf paruChars (lowerStr (sourceStr op0))
          || listInfixOf flatpakChars (lowerStr (sourceStr op0))) = true := by
        rcases hp with h | h <;> simp [h]
      simp only [hcond, if_true, ih]
      constructor
      · intro ⟨hm, hq⟩; exact ⟨List.mem_cons_of_mem _ hm, hq⟩
      · intro ⟨hm, hq1, hq2⟩
        rcases List.mem_cons.mp hm with he | hm2
        · subst he
          rcases hp with h | h
          · rw [hq1] at h; exact absurd h (by simp)
          · rw [hq2] at h; exact absurd h (by simp)
        · exact ⟨hm2, hq1, hq2⟩
    · push_neg at hp
      have hcond : (listInfixOf paruChars (lowerStr (sourceStr op0))
          || listInfixOf flatpakChars (lowerStr (sourceStr op0))) = false := by
        rcases hp with ⟨h1, h2⟩
        simp [Bool.not_eq_true] at h1 h2
        simp [h1, h2]
      simp only [hcond, Bool.false_eq_true, if_false]
      constructor
      · intro hm
        rcases List.mem_cons.mp hm with he | hm2
        · subst he
          rcases hp with ⟨h1, h2⟩
          simp [Bool.not_eq_true] at h1 h2
          exact ⟨List.mem_cons_self _ _, h1, h2⟩
        · rcases ih.mp hm2 with ⟨hm3, hq⟩
          exact ⟨List.mem_cons_of_mem _ hm3, hq⟩
      · intro ⟨hm, hq1, hq2⟩
        rcases List.mem_cons.mp hm with he | hm2
        · subst he; exact List.mem_cons_self _ _
        · exact List.mem_cons_of_mem _ (ih.mpr ⟨hm2, hq1, hq2⟩)

theorem mem_paruFilterOps (ops : List Op) (op : Op) :
    op ∈ paruFilterOps ops ↔ op ∈ ops
      ∧ listInfixOf paruChars (lowerStr (sourceStr op)) = true := by
  induction ops with
  | nil => simp [paruFilterOps]
  | cons op0 rest ih =>
    rw [paruFilterOps]
    by_cases hp : listInfixOf paruChars (lowerStr (sourceStr op0)) = true
    · simp only [hp, if_true]
      constructor
      · intro hm
        rcases List.mem_cons.mp hm with he | hm2
        · subst he; exact ⟨List.mem_cons_self _ _, hp⟩
        · rcases ih.mp hm2 with ⟨hm3, hq⟩
          exact ⟨List.mem_cons_of_mem _ hm3, hq⟩
      · intro ⟨hm, hq⟩
        rcases List.mem_cons.mp hm with he | hm2
        · subst he; exact List.mem_cons_self _ _
        · exact List.mem_cons_of_mem _ (ih.mpr ⟨hm2, hq⟩)
    · simp only [if_neg hp, ih]
      constructor
      · intro ⟨hm, hq⟩; exact ⟨List.mem_cons_of_mem _ hm, hq⟩
      · intro ⟨hm, hq⟩
        rcases List.mem_cons.mp hm with he | hm2
        · subst he; exact absurd hq hp
        · exact ⟨hm2, hq⟩

/-- C10: both modules partition raw operations by their source tag
before preprocessing/dispatch.  For string-valued source tags: the
pacman module keeps exactly the operations whose lower-cased tag contains
neither `"paru"` nor `"flatpak"`, and the paru module keeps exactly those
whose lower-cased tag contains `"paru"` — in particular every operation
without a source tag is kept by pacman and excluded by paru. -/
theorem C10_source_partition (rawOps : List Op)
    (hwf : ∀ op ∈ rawOps, srcWF op = true) :
    (∀ op, op ∈ pacmanFilterOps rawOps ↔ op ∈ rawOps
      ∧ listInfixOf paruChars (lowerStr (sourceStr op)) = false
      ∧ listInfixOf flatpakChars (lowerStr (sourceStr op)) = false)
    ∧ (∀ op, op ∈ paruFilterOps rawOps ↔ op ∈ rawOps
      ∧ listInfixOf paruChars (lowerStr (sourceStr op)) = true)
    ∧ (∀ op ∈ rawOps, lookupVal "source" op = none →
        op ∈ pacmanFilterOps rawOps ∧ op ∉ paruFilterOps rawOps) := by
  refine ⟨fun op => mem_pacmanFilterOps rawOps op,
    fun op => mem_paruFilterOps rawOps op, ?_⟩
  intro op hm hnone
  have hsrc : sourceStr op = [] := by
    rw [sourceStr, hnone]
  constructor
  · exact (mem_pacmanFilterOps rawOps op).mpr
      ⟨hm, by rw [hsrc]; decide, by rw [hsrc]; decide⟩
  · intro hmem
    have := ((mem_paruFilterOps rawOps op).mp hmem).2
    rw [hsrc] at this
    exact absurd this (by decide)

/-- Witness for C10: of two operations — one tagged `source: "Paru"`,
one untagged — the paru module keeps exactly the former and the pacman
module exactly the latter. -/
theorem C10_witness :
    [("source", OpVal.rawStr ['P', 'a', 'r', 'u'])] ∈ paruFilterOps
      [[("source", OpVal.rawStr ['P', 'a', 'r', 'u'])],
       [("install", OpVal.pkgs [PkgData.str ['a']])]]
    ∧ [("install", OpVal.pkgs [PkgData.str ['a']])] ∈ pacmanFilterOps
      [[("source", OpVal.rawStr ['P', 'a', 'r', 'u'])],
       [("install", OpVal.pkgs [PkgData.str ['a']])]] := by
  have h := C10_source_partition
    [[("source", OpVal.rawStr ['P', 'a', 'r', 'u'])],
     [("install", OpVal.pkgs [PkgData.str ['a']])]]
    (by decide)
  constructor
  · exact (h.2.1 _).mpr ⟨by decide, by decide⟩
  · exact (h.1 _).mpr ⟨by decide, by decide, by decide⟩
/-- C3 (amended): under the paru backend, for every operation list and
every behaviour of the underlying commands the run returns no error
(`None`); whenever the filtered operations yield a positive
`total_packages` the run reaches its terminal step and its last action is
pushing progress 1.0; but when the filtered total is zero (e.g. every
operation lacks a `paru` source tag) the run returns `None` immediately
WITHOUT pushing 1.0 — contrary to the claim as stated (see the
counterexample). -/
theorem C3_amended (loc : List Char) (beh : Nat → Nat → Bool) (r : Nat)
    (rawOps : List Op) :
    (paruRun loc beh r rawOps).err = false
    ∧ (0 < paruTotal loc (paruFilterOps rawOps) →
        (paruRun loc beh r rawOps).events.getLast? = some PEv.progressDone)
    ∧ (paruTotal loc (paruFilterOps rawOps) = 0 →
        (paruRun loc beh r rawOps).events = []) := by
  by_cases h : paruTotal loc (paruFilterOps rawOps) = 0
  · refine ⟨?_, ?_, ?_⟩
    · rw [paruRun]; simp [h]
    · intro hpos; omega
    · intro _; rw [paruRun]; simp [h]
  · refine ⟨?_, ?_, ?_⟩
    · rw [paruRun]; simp only [if_neg h]
    · intro _
      rw [paruRun]
      simp only [if_neg h]
      exact List.getLast?_concat _
    · intro h0; exact absurd h0 h

/-- Witness for C3: the operation `{try_remove: ["x"], source: "paru"}`
under a backend whose every command fails — the run returns `None` and
ends by pushing progress 1.0. -/
theorem C3_witness :
    (paruRun enLocale (fun _ _ => false) 0
        [[("try_remove", OpVal.pkgs [PkgData.str ['x']]),
          ("source", OpVal.rawStr ['p', 'a', 'r', 'u'])]]).err = false
    ∧ (paruRun enLocale (fun _ _ => false) 0
        [[("try_remove", OpVal.pkgs [PkgData.str ['x']]),
          ("source", OpVal.rawStr ['p', 'a', 'r', 'u'])]]).events.getLast?
      = some PEv.progressDone := by
  have h := C3_amended enLocale (fun _ _ => false) 0
    [[("try_remove", OpVal.pkgs [PkgData.str ['x']]),
      ("source", OpVal.rawStr ['p', 'a', 'r', 'u'])]]
  exact ⟨h.1, h.2.1 (by decide)⟩

/-- Counterexample to C3 as stated: the spec's own scenario
`[{try_remove: ["x"]}]` (no source tag) is filtered out by the paru
module, so its run returns `None` immediately with an empty event trace —
progress 1.0 is never pushed. -/
theorem C3_counterexample :
    (paruRun enLocale (fun _ _ => false) 0
        [[("try_remove", OpVal.pkgs [PkgData.str ['x']])]]).err = false
    ∧ (paruRun enLocale (fun _ _ => false) 0
        [[("try_remove", OpVal.pkgs [PkgData.str ['x']])]]).events = [] := by
  refine ⟨by decide, by decide⟩
theorem progressPos_nil : progressPos [] := by
  intro e he; exact absurd he (by simp)

theorem progressPos_append {a b : List Ev} (ha : progressPos a) (hb : progressPos b) :
    progressPos (a ++ b) := by
  intro e he c t heq
  rcases List.mem_append.mp he with h | h
  · exact ha e h c t heq
  · exact hb e h c t heq

theorem progressPos_single_of (e0 : Ev) (h : ∀ c t, e0 ≠ Ev.progress c t) :
    progressPos [e0] := by
  intro e he c t heq
  simp at he
  subst he
  exact absurd heq (h c t)

theorem progressPos_single_progress (c0 t0 : Nat) (h : 0 < t0) :
    progressPos [Ev.progress c0 t0] := by
  intro e he c t heq
  simp at he
  subst he
  cases heq
  exact h

theorem progressPos_modeChangeEv (s : MState) : progressPos (modeChangeEv s) := by
  rw [modeChangeEv]
  by_cases h : 0 < s.total
  · rw [if_pos h]
    exact progressPos_single_progress _ _ h
  · rw [if_neg h]
    exact progressPos_nil

theorem progressPos_dispatchEv (s1 : MState) (k : String) (l : List PkgData) :
    progressPos (dispatchEv s1 k l) := by
  rw [dispatchEv]
  split_ifs
  all_goals first
    | exact progressPos_append (progressPos_modeChangeEv s1)
        (progressPos_single_of _ (by intro c t h; cases h))
    | exact progressPos_single_of _ (by intro c t h; cases h)

theorem progressPos_pacmanRunOpsKey (loc : List Char) (pf : Nat → Bool)
    (s : MState) (ix : Nat) (kv : String × OpVal) :
    progressPos (pacmanRunOpsKey loc pf s ix kv).events := by
  simp only [pacmanRunOpsKey]
  split
  · exact progressPos_dispatchEv _ _ _
  · apply progressPos_append (progressPos_dispatchEv _ _ _)
    split
    · next hpos => exact progressPos_single_progress _ _ hpos
    · exact progressPos_nil

theorem progressPos_pacmanRunOpsKeys (loc : List Char) (pf : Nat → Bool) :
    ∀ (kvs : List (String × OpVal)) (s : MState) (ix : Nat),
      progressPos (pacmanRunOpsKeys loc pf s ix kvs).events := by
  intro kvs
  induction kvs with
  | nil => intro s ix; exact progressPos_nil
  | cons kv rest ih =>
    intro s ix
    simp only [pacmanRunOpsKeys]
    split
    · exact progressPos_pacmanRunOpsKey loc pf s ix kv
    · exact progressPos_append (progressPos_pacmanRunOpsKey loc pf s ix kv) (ih _ _)

theorem progressPos_pacmanRunOps (loc : List Char) (pf : Nat → Bool)
    (s : MState) (ix : Nat) (op : Op) :
    progressPos (pacmanRunOps loc pf s ix op).events := by
  simp only [pacmanRunOps]
  split
  · exact progressPos_pacmanRunOpsKeys loc pf op s ix
  · exact progressPos_append (progressPos_pacmanRunOpsKeys loc pf op s ix)
      (progressPos_modeChangeEv _)

theorem progressPos_pacmanDispatch (loc : List Char) (pf : Nat → Bool) :
    ∀ (pops : List POp) (s : MState) (ix : Nat),
      progressPos (pacmanDispatch loc pf s ix pops).events := by
  intro pops
  induction pops with
  | nil => intro s ix; exact progressPos_nil
  | cons op rest ih =>
    intro s ix
    simp only [pacmanDispatch]
    split
    · exact progressPos_pacmanRunOps loc pf _ ix op.toOp
    · exact progressPos_append (progressPos_pacmanRunOps loc pf _ ix op.toOp) (ih _ _)

theorem progressPos_pacmanRunAfterPre (loc : List Char) (pf : Nat → Bool)
    (pops : List POp) (tot : Nat) :
    progressPos (pacmanRunAfterPre loc pf pops tot).events := by
  simp only [pacmanRunAfterPre]
  split
  · exact progressPos_nil
  · split
    · exact progressPos_pacmanDispatch loc pf pops _ 0
    · exact progressPos_append (progressPos_pacmanDispatch loc pf pops _ 0)
        (progressPos_single_of _ (by intro c t h; cases h))

/-- C9: (1) with a zero total after preprocessing the pacman run returns
`None` immediately, dispatching nothing and pushing nothing; (2) when
every base package is filtered out, the pacstrap run returns `None`
(reporting success, with the final progress push); (3) in every pacman
run, any fractional progress push `completed/total` has `total > 0` — the
quotient is never formed with a zero total. -/
theorem C9_zero_total_no_div (loc : List Char) (pf : Nat → Bool) (pops : List POp)
    (repoP repoG : List (List Char)) (base : List PkgData) (pacstrapOk : Bool) :
    ((pacmanRunAfterPre loc pf pops 0).err = false
      ∧ (pacmanRunAfterPre loc pf pops 0).events = []
      ∧ (pacmanRunAfterPre loc pf pops 0).states = [⟨0, 0, 0⟩])
    ∧ (filterOpList repoP repoG base = [] →
        pacstrapRun repoP repoG base pacstrapOk = (none, true))
    ∧ (∀ tot, ∀ e ∈ (pacmanRunAfterPre loc pf pops tot).events,
        ∀ c t, e = Ev.progress c t → 0 < t) := by
  refine ⟨⟨?_, ?_, ?_⟩, ?_, ?_⟩
  · rw [pacmanRunAfterPre]; simp
  · rw [pacmanRunAfterPre]; simp
  · rw [pacmanRunAfterPre]; simp
  · intro hbp
    rw [pacstrapRun]
    simp [hbp]
  · intro tot
    exact progressPos_pacmanRunAfterPre loc pf pops tot

/-- Witness for C9: a concrete zero-total pacman run, an all-filtered
pacstrap run, and the progress events of a concrete non-trivial run. -/
theorem C9_witness :
    (pacmanRunAfterPre enLocale (fun _ => false)
        [[("install", [PkgData.str ['a']])]] 0).err = false
    ∧ pacstrapRun [] [] [PkgData.str ['z']] true = (none, true) := by
  have h := C9_zero_total_no_div enLocale (fun _ => false)
    [[("install", [PkgData.str ['a']])]] [] [] [PkgData.str ['z']] true
  exact ⟨h.1.1, h.2.1 (by decide)⟩
theorem substLocale_item_resolves (loc : List Char) :
    ∀ l : List PkgData, ∀ item ∈ substLocale loc l, resolveEntry loc item ≠ none := by
  intro l
  induction l with
  | nil => intro item h; exact absurd h (by simp [substLocale])
  | cons p rest ih =>
    intro item hitem
    rcases hres : resolveEntry loc p with _ | nm
    · rw [substLocale, hres] at hitem
      exact ih item hitem
    · rw [substLocale, hres] at hitem
      rcases List.mem_cons.mp hitem with h1 | h2
      · have hpn : pkgNameOf item = some nm := by
          cases p with
          | str s => simp [h1, pkgNameOf]
          | record pk pre post => simp [h1, pkgNameOf]
        have hre : resolveEntry loc item = resolveName loc nm := by
          simp only [resolveEntry, hpn]
        rw [hre]
        by_cases hloc : loc = enLocale
        · subst hloc
          rcases hname : pkgNameOf p with _ | n0
          · rw [resolveEntry, hname] at hres; exact absurd hres (by simp)
          · have hsome : resolveName enLocale n0 = some nm := by
              simp only [resolveEntry, hname] at hres; exact hres
            simp only [resolveName] at hsome
            rw [if_neg (by simp)] at hsome
            by_cases hinf : listInfixOf localeIdent n0 = true
            · rw [if_pos hinf] at hsome; exact absurd hsome (by simp)
            · rw [if_neg hinf] at hsome
              have hnm : nm = n0 := (Option.some_injective _ hsome).symm
              subst hnm
              simp only [resolveName]
              rw [if_neg (by simp), if_neg hinf]
              simp
        · simp only [resolveName]
          rw [if_pos hloc]
          simp
      · exact ih item h2

theorem substLocale_length_of_resolved (loc : List Char) :
    ∀ l : List PkgData, (∀ p ∈ l, resolveEntry loc p ≠ none) →
      (substLocale loc l).length = l.length := by
  intro l
  induction l with
  | nil => intro _; rfl
  | cons p rest ih =>
    intro h
    rcases hres : resolveEntry loc p with _ | nm
    · exact absurd hres (h p (List.mem_cons_self _ _))
    · rw [substLocale, hres]
      simp only [List.length_cons]
      rw [ih (fun q hq => h q (List.mem_cons_of_mem _ hq))]

theorem filterOpList_subset (repoP repoG : List (List Char)) :
    ∀ l : List PkgData, ∀ item ∈ filterOpList repoP repoG l, item ∈ l := by
  intro l
  induction l with
  | nil => intro item h; exact absurd h (by simp [filterOpList])
  | cons p rest ih =>
    intro item hitem
    rcases hname : pkgNameOf p with _ | n
    · rw [filterOpList, hname] at hitem
      exact List.mem_cons_of_mem _ (ih item hitem)
    · rw [filterOpList, hname] at hitem
      have hitem2 : item ∈ (if n = [] then filterOpList repoP repoG rest
          else if n ∈ repoP ∨ n ∈ repoG then p :: filterOpList repoP repoG rest
          else filterOpList repoP repoG rest) := hitem
      by_cases hn0 : n = []
      · rw [if_pos hn0] at hitem2
        exact List.mem_cons_of_mem _ (ih item hitem2)
      · rw [if_neg hn0] at hitem2
        by_cases hmem : n ∈ repoP ∨ n ∈ repoG
        · rw [if_pos hmem] at hitem2
          rcases List.mem_cons.mp hitem2 with h1 | h2
          · exact h1 ▸ List.mem_cons_self _ _
          · exact List.mem_cons_of_mem _ (ih item h2)
        · rw [if_neg hmem] at hitem2
          exact List.mem_cons_of_mem _ (ih item hitem2)

theorem preprocessEntry_stable_length (loc : List Char) (repoP repoG : List (List Char))
    (kv : String × OpVal) :
    (substLocale loc (preprocessEntry loc repoP repoG kv).1.2).length
      = (preprocessEntry loc repoP repoG kv).1.2.length := by
  simp only [preprocessEntry]
  by_cases h1 : kv.1 ∈ filterKeys
  · simp only [if_pos h1]
    exact substLocale_length_of_resolved loc _
      (fun p hp => substLocale_item_resolves loc _ p (filterOpList_subset _ _ _ p hp))
  · simp only [if_neg h1]
    by_cases h2 : kv.1 = "localInstall"
    · simp only [if_pos h2]
      exact substLocale_length_of_resolved loc _
        (fun p hp => substLocale_item_resolves loc _ p hp)
    · simp only [if_neg h2]
      exact substLocale_length_of_resolved loc _
        (fun p hp => substLocale_item_resolves loc _ p hp)

theorem preprocessEntry_fst_key (loc : List Char) (repoP repoG : List (List Char))
    (kv : String × OpVal) :
    (preprocessEntry loc repoP repoG kv).1.1 = kv.1 := by
  simp only [preprocessEntry]
  split_ifs <;> rfl

theorem keysLen_cons (loc : List Char) (kv : String × OpVal)
    (rest : List (String × OpVal)) :
    keysLen loc (kv :: rest)
      = (substLocale loc kv.2.toPlist).length + keysLen loc rest := by
  simp [keysLen]

theorem preprocessOpEntries_keysLen (loc : List Char) (repoP repoG : List (List Char)) :
    ∀ op : List (String × OpVal), (∀ kv ∈ op, kv.1 ∈ execKeys) →
      keysLen loc (POp.toOp (preprocessOpEntries loc repoP repoG op).1)
        = (preprocessOpEntries loc repoP repoG op).2 := by
  intro op
  induction op with
  | nil => intro _; rfl
  | cons kv0 rest ih =>
    intro hexec
    rw [preprocessOpEntries]
    simp only [POp.toOp, keysLen, List.map_cons, List.sum_cons, OpVal.toPlist]
    have hh := preprocessEntry_stable_length loc repoP repoG kv0
    have hcount := preprocessEntry_exec_count loc repoP repoG kv0
    rw [preprocessEntry_fst_key loc repoP repoG kv0] at hcount
    rw [if_pos (hexec kv0 (List.mem_cons_self _ _))] at hcount
    have ihr := ih (fun kv h => hexec kv (List.mem_cons_of_mem _ h))
    simp only [POp.toOp, keysLen, OpVal.toPlist] at ihr
    rw [hh, hcount, ihr]

theorem popsLen_cons (loc : List Char) (p : POp) (rest : List POp) :
    popsLen loc (p :: rest) = keysLen loc p.toOp + popsLen loc rest := by
  simp [popsLen]

theorem popsLen_le_total (loc : List Char) (repoP repoG : List (List Char)) :
    ∀ ops : List Op, (∀ op ∈ ops, ∀ kv ∈ op, kv.1 ∈ execKeys) →
      popsLen loc (preprocessOps loc repoP repoG ops).1
        ≤ (preprocessOps loc repoP repoG ops).2 := by
  intro ops
  induction ops with
  | nil => intro _; simp [preprocessOps, popsLen]
  | cons op rest ih =>
    intro hexec
    have h1 := preprocessOpEntries_keysLen loc repoP repoG op
      (fun kv h => hexec op (List.mem_cons_self _ _) kv h)
    have h2 := ih (fun o ho kv h => hexec o (List.mem_cons_of_mem _ ho) kv h)
    rw [preprocessOps]
    by_cases hk : keepOp (preprocessOpEntries loc repoP repoG op).1
    · simp only [if_pos hk, popsLen_cons]
      rw [h1]
      omega
    · simp only [if_neg hk]
      omega
theorem pacmanRunOpsKey_invariant (loc : List Char) (pf : Nat → Bool)
    (s : MState) (ix : Nat) (kv : String × OpVal) :
    (pacmanRunOpsKey loc pf s ix kv).state.total = s.total
    ∧ (pacmanRunOpsKey loc pf s ix kv).state.completed
        ≤ s.completed + (substLocale loc kv.2.toPlist).length
    ∧ ∀ st ∈ (pacmanRunOpsKey loc pf s ix kv).states,
        st.total = s.total
        ∧ st.completed ≤ s.completed + (substLocale loc kv.2.toPlist).length := by
  simp only [pacmanRunOpsKey]
  split
  · refine ⟨rfl, Nat.le_add_right _ _, ?_⟩
    intro st hst
    simp at hst
    subst hst
    exact ⟨rfl, Nat.le_add_right _ _⟩
  · refine ⟨rfl, Nat.le_refl _, ?_⟩
    intro st hst
    simp at hst
    rcases hst with h | h <;> subst h
    · exact ⟨rfl, Nat.le_add_right _ _⟩
    · exact ⟨rfl, Nat.le_refl _⟩

theorem pacmanRunOpsKeys_invariant (loc : List Char) (pf : Nat → Bool) :
    ∀ (kvs : List (String × OpVal)) (s : MState) (ix : Nat),
      (pacmanRunOpsKeys loc pf s ix kvs).state.total = s.total
      ∧ (pacmanRunOpsKeys loc pf s ix kvs).state.completed
          ≤ s.completed + keysLen loc kvs
      ∧ ∀ st ∈ (pacmanRunOpsKeys loc pf s ix kvs).states,
          st.total = s.total ∧ st.completed ≤ s.completed + keysLen loc kvs := by
  intro kvs
  induction kvs with
  | nil =>
    intro s ix
    refine ⟨rfl, by simp [pacmanRunOpsKeys, keysLen], ?_⟩
    intro st hst
    exact absurd hst (by simp [pacmanRunOpsKeys])
  | cons kv rest ih =>
    intro s ix
    have hd1 := pacmanRunOpsKey_invariant loc pf s ix kv
    simp only [pacmanRunOpsKeys]
    rw [keysLen_cons]
    split
    · refine ⟨hd1.1, by have := hd1.2.1; omega, ?_⟩
      intro st hst
      rcases hd1.2.2 st hst with ⟨ht, hc⟩
      exact ⟨ht, by omega⟩
    · have hd2 := ih (pacmanRunOpsKey loc pf s ix kv).state
        (pacmanRunOpsKey loc pf s ix kv).ix
      refine ⟨by rw [hd2.1, hd1.1], ?_, ?_⟩
      · have h1 := hd1.2.1
        have h2 := hd2.2.1
        exact le_trans h2 (by omega)
      · intro st hst
        rcases List.mem_append.mp hst with h | h
        · rcases hd1.2.2 st h with ⟨ht, hc⟩
          exact ⟨ht, by omega⟩
        · rcases hd2.2.2 st h with ⟨ht, hc⟩
          have h1 := hd1.2.1
          exact ⟨by rw [ht, hd1.1], by omega⟩

theorem pacmanRunOps_invariant (loc : List Char) (pf : Nat → Bool)
    (s : MState) (ix : Nat) (op : Op) :
    (pacmanRunOps loc pf s ix op).state.total = s.total
    ∧ (pacmanRunOps loc pf s ix op).state.completed ≤ s.completed + keysLen loc op
    ∧ ∀ st ∈ (pacmanRunOps loc pf s ix op).states,
        st.total = s.total ∧ st.completed ≤ s.completed + keysLen loc op := by
  have hk := pacmanRunOpsKeys_invariant loc pf op s ix
  simp only [pacmanRunOps]
  split
  · exact hk
  · refine ⟨hk.1, hk.2.1, ?_⟩
    intro st hst
    rcases List.mem_append.mp hst with h | h
    · exact hk.2.2 st h
    · simp at h
      subst h
      exact ⟨hk.1, hk.2.1⟩

theorem pacmanDispatch_invariant (loc : List Char) (pf : Nat → Bool) :
    ∀ (pops : List POp) (s : MState) (ix : Nat),
      (pacmanDispatch loc pf s ix pops).state.total = s.total
      ∧ (pacmanDispatch loc pf s ix pops).state.completed
          ≤ s.completed + popsLen loc pops
      ∧ ∀ st ∈ (pacmanDispatch loc pf s ix pops).states,
          st.total = s.total ∧ st.completed ≤ s.completed + popsLen loc pops := by
  intro pops
  induction pops with
  | nil =>
    intro s ix
    refine ⟨rfl, by simp [pacmanDispatch, popsLen], ?_⟩
    intro st hst
    exact absurd hst (by simp [pacmanDispatch])
  | cons op rest ih =>
    intro s ix
    have hd1 := pacmanRunOps_invariant loc pf { s with group := 0 } ix op.toOp
    have hd1t : (pacmanRunOps loc pf { s with group := 0 } ix op.toOp).state.total
        = s.total := hd1.1
    have hd1c : (pacmanRunOps loc pf { s with group := 0 } ix op.toOp).state.completed
        ≤ s.completed + keysLen loc op.toOp := hd1.2.1
    have hd1s : ∀ st ∈ (pacmanRunOps loc pf { s with group := 0 } ix op.toOp).states,
        st.total = s.total ∧ st.completed ≤ s.completed + keysLen loc op.toOp := hd1.2.2
    simp only [pacmanDispatch]
    rw [popsLen_cons]
    split
    · refine ⟨hd1t, le_trans hd1c (by omega), ?_⟩
      intro st hst
      rcases List.mem_cons.mp hst with h | h
      · subst h
        exact ⟨rfl, Nat.le_add_right _ _⟩
      · rcases hd1s st h with ⟨ht, hc⟩
        exact ⟨ht, by omega⟩
    · have hd2 := ih (pacmanRunOps loc pf { s with group := 0 } ix op.toOp).state
        (pacmanRunOps loc pf { s with group := 0 } ix op.toOp).ix
      refine ⟨by rw [hd2.1, hd1t], ?_, ?_⟩
      · exact le_trans hd2.2.1 (by have := hd1c; omega)
      · intro st hst
        rcases List.mem_cons.mp hst with h | h
        · subst h
          exact ⟨rfl, Nat.le_add_right _ _⟩
        · rcases List.mem_append.mp h with h2 | h2
          · rcases hd1s st h2 with ⟨ht, hc⟩
            exact ⟨ht, by omega⟩
          · rcases hd2.2.2 st h2 with ⟨ht, hc⟩
            have h1 := hd1c
            exact ⟨by rw [ht, hd1t], by omega⟩

/-- C2 (amended): in every pacman run, `total_packages` is fixed at the
preprocessing total and never reassigned, and `0 ≤ completed_packages`
throughout (counters are naturals); and when every key of every
dispatched operation is one of the five executable kinds,
`completed_packages ≤ total_packages` holds at every point.  Without
that proviso the upper bound can fail — a kept `source` (or unknown) key
also advances `completed_packages` (see the counterexample). -/
theorem C2_amended (loc : List Char) (pf : Nat → Bool) (repoP repoG : List (List Char))
    (rawOps : List Op) :
    (∀ st ∈ (pacmanRun loc pf repoP repoG rawOps).states,
        st.total = (preprocessOps loc repoP repoG (pacmanFilterOps rawOps)).2)
    ∧ ((∀ op ∈ pacmanFilterOps rawOps, ∀ kv ∈ op, kv.1 ∈ execKeys) →
        ∀ st ∈ (pacmanRun loc pf repoP repoG rawOps).states,
          st.completed ≤ st.total) := by
  have hdisp := pacmanDispatch_invariant loc pf
    (preprocessOps loc repoP repoG (pacmanFilterOps rawOps)).1
    ⟨(preprocessOps loc repoP repoG (pacmanFilterOps rawOps)).2, 0, 0⟩ 0
  have hds : ∀ st ∈ (pacmanDispatch loc pf
      ⟨(preprocessOps loc repoP repoG (pacmanFilterOps rawOps)).2, 0, 0⟩ 0
      (preprocessOps loc repoP repoG (pacmanFilterOps rawOps)).1).states,
      st.total = (preprocessOps loc repoP repoG (pacmanFilterOps rawOps)).2
      ∧ st.completed
          ≤ 0 + popsLen loc (preprocessOps loc repoP repoG (pacmanFilterOps rawOps)).1 :=
    hdisp.2.2
  constructor
  · intro st hst
    rw [pacmanRun, pacmanRunAfterPre] at hst
    by_cases h0 : (preprocessOps loc repoP repoG (pacmanFilterOps rawOps)).2 = 0
    · simp only [h0, if_pos rfl] at hst
      simp at hst
      subst hst
      exact h0.symm
    · simp only [if_neg h0] at hst
      split at hst
      · rcases List.mem_cons.mp hst with h | h
        · subst h; rfl
        · exact (hds st h).1
      · rcases List.mem_cons.mp hst with h | h
        · subst h; rfl
        · exact (hds st h).1
  · intro hexec st hst
    have hle := popsLen_le_total loc repoP repoG (pacmanFilterOps rawOps) hexec
    rw [pacmanRun, pacmanRunAfterPre] at hst
    by_cases h0 : (preprocessOps loc repoP repoG (pacmanFilterOps rawOps)).2 = 0
    · simp only [h0, if_pos rfl] at hst
      simp at hst
      subst hst
      exact Nat.le_refl _
    · simp only [if_neg h0] at hst
      split at hst
      · rcases List.mem_cons.mp hst with h | h
        · subst h; exact Nat.zero_le _
        · rcases hds st h with ⟨ht, hc⟩
          rw [ht]; omega
      · rcases List.mem_cons.mp hst with h | h
        · subst h; exact Nat.zero_le _
        · rcases hds st h with ⟨ht, hc⟩
          rw [ht]; omega

/-- Witness for C2: the executable-keys-only operation
`{install: ["a"]}` with repository `{a}` — every state of the run keeps
`completed ≤ total` with `total` fixed at 1. -/
theorem C2_witness :
    ∀ st ∈ (pacmanRun enLocale (fun _ => false) [['a']] []
        [[("install", OpVal.pkgs [PkgData.str ['a']])]]).states,
      st.total = 1 ∧ st.completed ≤ st.total := by
  have h := C2_amended enLocale (fun _ => false) [['a']] []
    [[("install", OpVal.pkgs [PkgData.str ['a']])]]
  intro st hst
  constructor
  · have := h.1 st hst
    rw [this]
    decide
  · exact h.2 (by decide) st hst

/-- Counterexample to C2 as stated: for the kept operation
`{install: ["a"], source: "xy"}` (repository `{a}`, locale `"en"`) the
run visits the state `total = 1, completed = 3, group = 2` — the
`source` key's two characters are locale-resolved and added to
`completed_packages`, which then exceeds `total_packages`. -/
theorem C2_counterexample :
    MState.mk 1 3 2 ∈ (pacmanRun enLocale (fun _ => false) [['a']] []
      [[("install", OpVal.pkgs [PkgData.str ['a']]),
        ("source", OpVal.rawStr ['x', 'y'])]]).states
    ∧ ¬((3 : Nat) ≤ 1) := by
  refine ⟨by decide, by decide⟩

/-- Evaluation check: `${LOCALE}` inside a name is substituted. -/
theorem safeSubst_eval_braced : safeSubst ['f', 'r']
    ['l', 'a', 'n', 'g', '-', '$', '{', 'L', 'O', 'C', 'A', 'L', 'E', '}', '-', 'p']
    = ['l', 'a', 'n', 'g', '-', 'f', 'r', '-', 'p'] := by decide

/-- Evaluation check: `$$` is an escape, leaving the following braced text verbatim. -/
theorem safeSubst_eval_escape : safeSubst ['f', 'r'] ['$', '$', '{', 'L', 'O', 'C', 'A', 'L', 'E', '}']
    = ['$', '{', 'L', 'O', 'C', 'A', 'L', 'E', '}'] := by decide

/-- Evaluation check: a longer identifier (`LOCALEX`) is not the `LOCALE` key. -/
theorem safeSubst_eval_named_longer : safeSubst ['f', 'r'] ['a', '$', 'L', 'O', 'C', 'A', 'L', 'E', 'X']
    = ['a', '$', 'L', 'O', 'C', 'A', 'L', 'E', 'X'] := by decide

/-- Evaluation check: the unbraced form `$LOCALE` is also substituted. -/
theorem safeSubst_eval_named : safeSubst ['f', 'r'] ['a', '$', 'L', 'O', 'C', 'A', 'L', 'E', '-']
    = ['a', 'f', 'r', '-'] := by decide

/-- Evaluation check of the segment interleaving. -/
theorem joinWith_eval : joinWith localeToken [['a'], ['b']]
    = 'a' :: '$' :: '{' :: 'L' :: 'O' :: 'C' :: 'A' :: 'L' :: 'E' :: '}' :: ['b'] := by
  decide

end CatosPkg
